import Mathlib

/-!
Shallow embedding of the core logic of `src/app.py` (Google Scholar
publication-similarity checker) and verification of its specification.

Text is modelled as `List Char` (Python `str`), packed RGB colors as `Nat`,
page coordinates as `ℚ` (the source receives floating-point coordinates from
the PDF library but only compares them), and Python dicts as association
lists with insertion order and last-write-wins update, matching CPython's
dict semantics.
-/

/-- Python `str.isspace`-style whitespace test used by `str.strip()`:
space, tab, newline, carriage return, vertical tab, form feed. -/
def pyIsSpace (c : Char) : Bool :=
  decide (c = ' ') || decide (c = '\t') || decide (c = '\n') ||
  decide (c = '\x0d') || decide (c = '\x0b') || decide (c = '\x0c')

/-- Python `s.strip()`: drop leading and trailing whitespace characters. -/
def pyStrip (s : List Char) : List Char :=
  ((s.dropWhile pyIsSpace).reverse.dropWhile pyIsSpace).reverse

/-- Python `s.replace(" ", "")` (app.py lines 117 and 126): removing every
occurrence of the one-character string `" "` deletes exactly the space
characters, i.e. filters out `' '`. -/
def pyReplaceSpace (s : List Char) : List Char :=
  s.filter (fun c => decide (c ≠ ' '))

/-- Span of styled text: `span['text']` and `span['color']` (packed RGB). -/
structure Span where
  text : List Char
  color : Nat
deriving DecidableEq

/-- Line of a text block: `line["spans"]`. -/
abbrev Line := List Span

/-- Block of a page dict, as consumed by app.py: `block.get("type", 0)`,
`block.get("bbox", [])` (modelled as `none` when absent or empty; the PDF
library otherwise supplies a 4-tuple x0, y0, x1, y1), and the `"lines"` key
(`none` models a block without a `"lines"` entry, cf. line 61). -/
structure Block where
  type : Nat
  bbox : Option (ℚ × ℚ × ℚ × ℚ)
  lines : Option (List Line)
deriving DecidableEq

/-- Page: the block list of `page.get_text("dict")["blocks"]` together with
the plain-text lines `page.get_text("text").split("\n")` produced by the PDF
library for the same page (app.py line 71). -/
structure Page where
  blocks : List Block
  textLines : List (List Char)
deriving DecidableEq

/-- Literal marker substring tested by `is_google_scholar` (app.py line 36). -/
def marker : List Char := "Google Scholar".toList

/-- Python `needle in hay` check on a prospective position: `hay` starts
with `needle`. -/
def listStartsWith (needle hay : List Char) : Bool :=
  match needle, hay with
  | [], _ => true
  | _ :: _, [] => false
  | a :: as, b :: bs => decide (a = b) && listStartsWith as bs

/-- Python substring containment `needle in hay` (app.py line 36). -/
def containsSub (needle : List Char) : List Char → Bool
  | [] => listStartsWith needle []
  | c :: t => listStartsWith needle (c :: t) || containsSub needle t

/-- Concatenation of a block's span texts with single-space separators:
`" ".join(span['text'] for line in block.get("lines", []) for span in
line.get("spans", []))` (app.py lines 30-33). -/
def blockText (b : Block) : List Char :=
  List.intercalate [' '] (((b.lines.getD []).flatMap (fun l => l)).map Span.text)

/-- Comparison of a candidate top coordinate with the running minimum,
`none` standing for the initial `float('inf')` (app.py lines 21, 28). -/
def ltTop (q : ℚ) (t : Option ℚ) : Bool :=
  match t with
  | none => true
  | some y => decide (q < y)

/-- One step of the topmost-block scan of app.py lines 24-33: text blocks
(`type == 0`) with a non-empty bbox whose top coordinate beats the running
minimum replace the accumulator `(topmost_y, topmost_text)`. -/
def topmostStep (acc : Option ℚ × List Char) (b : Block) : Option ℚ × List Char :=
  if b.type = 0 then
    match b.bbox with
    | some bb => if ltTop bb.2.1 acc.1 then (some bb.2.1, blockText b) else acc
    | none => acc
  else acc

/-- Function `is_google_scholar` (app.py lines 11-36) on the page structure
of the document: only page 0 is loaded; the topmost text block's joined text
is tested for the marker substring.  The source raises on a zero-page
document (`load_page(0)`); the `[]` case is modelled as `false` and is
unreachable in every theorem below. -/
def is_google_scholar (doc : List Page) : Bool :=
  match doc with
  | [] => false
  | p :: _ => containsSub marker (p.blocks.foldl topmostStep (none, [])).2

/-- Function `is_blue` (app.py lines 38-42). -/
def is_blue (color_int : Nat) : Bool :=
  let r := (color_int >>> 16) &&& 0xFF
  let g := (color_int >>> 8) &&& 0xFF
  let b := color_int &&& 0xFF
  decide (b > r) && decide (b > g)

/-- Mutable state of `extract_blue_text_with_years` (app.py lines 45-47):
the dict `blue_texts` (insertion-ordered, title → optional year), the
accumulator `current_title` and the year variable `current_year`. -/
structure ExtState where
  blueTexts : List (List Char × Option Nat)
  currentTitle : List Char
  currentYear : Option Nat
deriving DecidableEq

/-- Python dict assignment `d[k] = v`: overwrite in place if the key is
present, else append at the end (insertion order preserved). -/
def dictSet {α : Type} (d : List (List Char × α)) (k : List Char) (v : α) :
    List (List Char × α) :=
  if d.any (fun p => decide (p.1 = k)) then
    d.map (fun p => if p.1 = k then (k, v) else p)
  else d ++ [(k, v)]

/-- Python dict lookup `d.get(k)` on the association-list model. -/
def dictFind {α : Type} (d : List (List Char × α)) (k : List Char) : Option α :=
  (d.find? (fun p => decide (p.1 = k))).map Prod.snd

/-- Update of one dict entry during the year backfill (app.py lines 78-80):
a title whose recorded year is `None` receives the current year, provided
`current_year` is truthy (not `None` and nonzero). -/
def backfillStep (year : Option Nat) (p : List Char × Option Nat) :
    List Char × Option Nat :=
  match p.2, year with
  | none, some y => if y ≠ 0 then (p.1, some y) else p
  | _, _ => p

/-- Year backfill at a page boundary (app.py lines 77-80), applied to every
entry of `blue_texts`. -/
def backfill (d : List (List Char × Option Nat)) (year : Option Nat) :
    List (List Char × Option Nat) :=
  d.map (backfillStep year)

/-- Span step of the segmenter (app.py lines 63-69): a highlighted span's
text plus one space is appended to the accumulator; a plain span commits the
stripped accumulator (when non-blank) with year `None` and resets it. -/
def processSpan (st : ExtState) (s : Span) : ExtState :=
  if is_blue s.color then
    { st with currentTitle := st.currentTitle ++ s.text ++ [' '] }
  else if pyStrip st.currentTitle ≠ [] then
    { st with blueTexts := dictSet st.blueTexts (pyStrip st.currentTitle) none,
              currentTitle := [] }
  else st

/-- Line loop of the segmenter (app.py lines 62-69). -/
def processLine (st : ExtState) (l : Line) : ExtState :=
  l.foldl processSpan st

/-- Block loop of the segmenter (app.py lines 60-69): blocks without a
`"lines"` entry are skipped. -/
def processBlock (st : ExtState) (b : Block) : ExtState :=
  match b.lines with
  | none => st
  | some ls => ls.foldl processLine st

/-- Python `\w` word character (ASCII range), for the `\b` boundaries of the
year regex. -/
def isWordChar (c : Char) : Bool :=
  c.isAlphanum || decide (c = '_')

/-- Numeric value of a digit character. -/
def digitVal (c : Char) : Nat := c.toNat - '0'.toNat

/-- Whether the regex `\b(20\d{2}|19\d{2})\b` matches `s` at position `i`. -/
def yearMatchAt (s : List Char) (i : Nat) : Bool :=
  match s[i]?, s[i+1]?, s[i+2]?, s[i+3]? with
  | some c0, some c1, some c2, some c3 =>
    ((decide (c0 = '2') && decide (c1 = '0')) ||
     (decide (c0 = '1') && decide (c1 = '9'))) && c2.isDigit && c3.isDigit
    && (match i with
        | 0 => true
        | j + 1 => match s[j]? with
          | some cp => !isWordChar cp
          | none => true)
    && (match s[i+4]? with
        | some cn => !isWordChar cn
        | none => true)
  | _, _, _, _ => false

/-- Value `int(match.group(0))` of the 4-digit match at position `i`. -/
def yearValueAt (s : List Char) (i : Nat) : Nat :=
  1000 * digitVal (s.getD i '0') + 100 * digitVal (s.getD (i+1) '0') +
  10 * digitVal (s.getD (i+2) '0') + digitVal (s.getD (i+3) '0')

/-- Result of `re.search(r'\b(20\d{2}|19\d{2})\b', line.strip())` as used on
app.py line 73: the leftmost match of the year pattern, if any. -/
def lineYear (line : List Char) : Option Nat :=
  let s := pyStrip line
  ((List.range s.length).find? (fun i => yearMatchAt s i)).map
    (fun i => yearValueAt s i)

/-- Year scan of a page's text lines (app.py lines 71-75): each matching
line overwrites `current_year`, so the last match wins; the initial value is
whatever `current_year` already holds. -/
def pageYear (init : Option Nat) (lines : List (List Char)) : Option Nat :=
  lines.foldl (fun y line =>
    match lineYear line with
    | some v => some v
    | none => y) init

/-- Processing of one page (app.py lines 56-80): span walk, then year scan,
then backfill of year-less titles. -/
def processPage (st : ExtState) (p : Page) : ExtState :=
  let st1 := p.blocks.foldl processBlock st
  let y := pageYear st1.currentYear p.textLines
  { blueTexts := backfill st1.blueTexts y,
    currentTitle := st1.currentTitle,
    currentYear := y }

/-- Initial state of `extract_blue_text_with_years` (app.py lines 45-47). -/
def extractInit : ExtState := ⟨[], [], none⟩

/-- Function `extract_blue_text_with_years` (app.py lines 44-85) on the page
structure of a document: the final `blue_texts` dict.  Note that the
accumulator `current_title` still pending after the last page is discarded,
not committed. -/
def extract_blue_text_with_years (doc : List Page) : List (List Char × Option Nat) :=
  (doc.foldl processPage extractInit).blueTexts

/-- Recency filter (app.py line 104): `{title for title, year in
extracted_titles_with_years.items() if year and year >= min_year}`.  The
guard `year` is Python truthiness: `None` and `0` both fail it. -/
def filtered_titles (extracted : List (List Char × Option Nat)) (minYear : Nat) :
    Finset (List Char) :=
  ((extracted.filter (fun p =>
    match p.2 with
    | some y => decide (y ≠ 0) && decide (minYear ≤ y)
    | none => false)).map Prod.fst).toFinset

/-- Pairwise intersection (app.py line 117): `{t1 for t1 in all_sets[file1]
for t2 in all_sets[file2] if t1.replace(" ", "") == t2.replace(" ", "")}`. -/
def common_titles (A B : Finset (List Char)) : Finset (List Char) :=
  A.filter (fun t1 => ∃ t2 ∈ B, pyReplaceSpace t1 = pyReplaceSpace t2)

/-- Per-researcher dict `{title.replace(" ", ""): title for title in titles}`
(app.py line 126), built in iteration order over the researcher's title set. -/
def buildDict (titles : List (List Char)) : List (List Char × List Char) :=
  titles.foldl (fun d t => dictSet d (pyReplaceSpace t) t) []

/-- List `stripped_sets` of app.py line 126, one dict per researcher. -/
def stripped_sets (researchers : List (List (List Char))) :
    List (List (List Char × List Char)) :=
  researchers.map buildDict

/-- Key intersection `set.intersection(*[set(s.keys()) for s in
stripped_sets])` (app.py line 127), as the list of keys of the first dict
that occur in every other dict. -/
def common_all_keys (researchers : List (List (List Char))) : List (List Char) :=
  match (stripped_sets researchers).map (fun d => d.map Prod.fst) with
  | [] => []
  | s :: rest => rest.foldl (fun acc ks => acc.filter (fun k => decide (k ∈ ks))) s

/-- Set `common_all = {s[key] for s in stripped_sets for key in
common_all_keys}` (app.py line 128): for EVERY dict and every surviving key,
the dict's original title form is collected. -/
def common_all (researchers : List (List (List Char))) : Finset (List Char) :=
  ((stripped_sets researchers).flatMap
    (fun d => (common_all_keys researchers).filterMap (fun k => dictFind d k))).toFinset

/-- Blue RGB color `0x0000FF` used by the synthetic examples. -/
def blueColor : Nat := 0x0000FF

/-- Black RGB color `0x000000` used by the synthetic examples (not blue). -/
def blackColor : Nat := 0x000000

/-- One-block page whose single line holds the given spans and whose plain
text is empty. -/
def spanPage (spans : List Span) : Page :=
  ⟨[⟨0, none, some [spans]⟩], []⟩

/-- Document end boundary example: a single highlighted span `"End"` with no
following plain span. -/
def endPage : Page := spanPage [⟨"End".toList, blueColor⟩]

/-- Synthetic segmenter example: highlighted `"Foo "`, highlighted `"Bar"`,
plain `"Baz"`. -/
def fooPage : Page :=
  spanPage [⟨"Foo ".toList, blueColor⟩, ⟨"Bar".toList, blueColor⟩,
            ⟨"Baz".toList, blackColor⟩]

/-- Page with no spans whose plain text contains the year token `2020`. -/
def yearOnlyPage : Page := ⟨[], ["2020".toList]⟩

/-- Page committing the title `"T"` (one highlighted span, then a plain
span) whose plain text contains no year token. -/
def titleOnlyPage : Page :=
  ⟨[⟨0, none, some [[⟨"T".toList, blueColor⟩, ⟨"x".toList, blackColor⟩]]⟩],
   ["T".toList, "x".toList]⟩

/-- First page whose topmost (and only) text block reads
`"Citations — Google Scholar"`. -/
def scholarPage : Page :=
  ⟨[⟨0, some (0, 10, 100, 20), some [[⟨"Citations — Google Scholar".toList, blackColor⟩]]⟩],
   []⟩

/-- First page whose topmost (and only) text block reads
`"Annual Report 2023"`. -/
def annualPage : Page :=
  ⟨[⟨0, some (0, 10, 100, 20), some [[⟨"Annual Report 2023".toList, blackColor⟩]]⟩],
   []⟩

/-- First page with no text blocks (a single image block of type 1). -/
def imageOnlyPage : Page := ⟨[⟨1, some (0, 10, 100, 20), none⟩], []⟩

/-- Three researcher title lists whose normalized keys all intersect in the
single key `"ab"` while the original forms differ. -/
def rs3 : List (List (List Char)) :=
  [["a b".toList], ["ab".toList], ["ab".toList]]

/-- Example extraction result for the recency-filter example (current year
2024, cutoff 2020). -/
def extracted2024 : List (List Char × Option Nat) :=
  [("old".toList, some 2019), ("new".toList, some 2020), ("noyear".toList, none)]

/-- The spec's three-researcher example A = {X,Y}, B = {X,Z}, C = {X}: all
records spell the shared title identically. -/
def rsSame : List (List (List Char)) :=
  [["X".toList, "Y".toList], ["X".toList, "Z".toList], ["X".toList]]

/-- Invariant of the `blue_texts` dict claimed by the spec: every key is a
non-empty string with no leading or trailing whitespace (it is its own
strip). -/
def KeysGood (d : List (List Char × Option Nat)) : Prop :=
  ∀ q ∈ d, q.1 ≠ [] ∧ pyStrip q.1 = q.1

/-- Relation between a processed block list and the scan accumulator of
`is_google_scholar`: either no text block with a bbox was seen and the
accumulator is untouched, or it holds the joined text of a seen text block
whose top coordinate is minimal among all seen text blocks. -/
def TopSel (bs : List Block) (acc : Option ℚ × List Char) : Prop :=
  (acc = (none, []) ∧ ∀ b ∈ bs, ¬(b.type = 0 ∧ b.bbox.isSome = true)) ∨
  (∃ b ∈ bs, b.type = 0 ∧ ∃ bb, b.bbox = some bb ∧
    acc = (some bb.2.1, blockText b) ∧
    ∀ b' ∈ bs, b'.type = 0 → ∀ bb', b'.bbox = some bb' → bb.2.1 ≤ bb'.2.1)

/-- Dropping a leading run twice equals dropping it once. -/
theorem dropWhile_self {α : Type} (p : α → Bool) (l : List α) :
    (l.dropWhile p).dropWhile p = l.dropWhile p := by
  induction l with
  | nil => rfl
  | cons a t ih =>
    cases h : p a
    · simp [List.dropWhile_cons, h]
    · simp [List.dropWhile_cons, h, ih]

/-- The drop-while of a list is a drop of it. -/
theorem exists_dropWhile_eq_drop {α : Type} (p : α → Bool) (l : List α) :
    ∃ n, l.dropWhile p = l.drop n := by
  induction l with
  | nil => exact ⟨0, rfl⟩
  | cons a t ih =>
    cases h : p a
    · exact ⟨0, by simp [List.dropWhile_cons, h]⟩
    · obtain ⟨n, hn⟩ := ih
      exact ⟨n + 1, by simp [List.dropWhile_cons, h, hn]⟩

/-- The drop-while of a list is no longer than the list. -/
theorem dropWhile_length_le {α : Type} (p : α → Bool) (l : List α) :
    (l.dropWhile p).length ≤ l.length := by
  induction l with
  | nil => simp
  | cons a t ih =>
    cases h : p a
    · simp [List.dropWhile_cons, h]
    · simp only [List.dropWhile_cons, h, if_true, List.length_cons]
      exact Nat.le_succ_of_le ih

/-- A fixed point of drop-while starting with `a` has `p a = false`. -/
theorem dropWhile_fix_head {α : Type} (p : α → Bool) (a : α) (t : List α)
    (h : List.dropWhile p (a :: t) = a :: t) : p a = false := by
  cases hpa : p a
  · rfl
  · exfalso
    rw [List.dropWhile_cons, if_pos hpa] at h
    have hlen := congrArg List.length h
    have hle := dropWhile_length_le p t
    simp only [List.length_cons] at hlen
    omega

/-- Taking a neighbourhood of a drop-while fixed point stays a fixed point. -/
theorem take_dropWhile_fix {α : Type} (p : α → Bool) (l : List α) (n : Nat)
    (h : l.dropWhile p = l) : (l.take n).dropWhile p = l.take n := by
  cases l with
  | nil => simp
  | cons a t =>
    have hpa : p a = false := dropWhile_fix_head p a t h
    cases n with
    | zero => simp
    | succ m => simp [List.take_succ_cons, List.dropWhile_cons, hpa]

/-- Right-stripping is a take of the original list. -/
theorem rstrip_eq_take {α : Type} (p : α → Bool) (l : List α) :
    ∃ n, (l.reverse.dropWhile p).reverse = l.take n := by
  obtain ⟨m, hm⟩ := exists_dropWhile_eq_drop p l.reverse
  refine ⟨l.length - m, ?_⟩
  rw [hm, List.reverse_drop]
  simp

/-- The result of `pyStrip` has no leading whitespace. -/
theorem pyStrip_noLead (s : List Char) :
    (pyStrip s).dropWhile pyIsSpace = pyStrip s := by
  obtain ⟨n, hn⟩ := rstrip_eq_take pyIsSpace (s.dropWhile pyIsSpace)
  show ((s.dropWhile pyIsSpace).reverse.dropWhile pyIsSpace).reverse.dropWhile pyIsSpace =
    ((s.dropWhile pyIsSpace).reverse.dropWhile pyIsSpace).reverse
  rw [hn]
  exact take_dropWhile_fix pyIsSpace _ n (dropWhile_self pyIsSpace s)

/-- Function `pyStrip` is idempotent: a stripped string has no leading or
trailing whitespace left to strip. -/
theorem pyStrip_idem (s : List Char) : pyStrip (pyStrip s) = pyStrip s := by
  have h1 := pyStrip_noLead s
  have h2 : (pyStrip s).reverse.dropWhile pyIsSpace = (pyStrip s).reverse := by
    have hrev : (pyStrip s).reverse = (s.dropWhile pyIsSpace).reverse.dropWhile pyIsSpace := by
      simp [pyStrip]
    rw [hrev, dropWhile_self]
  show (((pyStrip s).dropWhile pyIsSpace).reverse.dropWhile pyIsSpace).reverse = pyStrip s
  rw [h1, h2, List.reverse_reverse]

/-- A property preserved by each fold step holds after the whole fold. -/
theorem foldl_preserve {α β : Type} {P : α → Prop} {f : α → β → α}
    (h : ∀ a b, P a → P (f a b)) (l : List β) (a : α) (ha : P a) :
    P (l.foldl f a) := by
  induction l generalizing a with
  | nil => exact ha
  | cons b t ih => exact ih _ (h a b ha)

/-- Every entry of `dictSet d k v` is an old entry or the new pair. -/
theorem dictSet_mem {α : Type} (d : List (List Char × α)) (k : List Char) (v : α) :
    ∀ q ∈ dictSet d k v, q ∈ d ∨ q = (k, v) := by
  intro q hq
  simp only [dictSet] at hq
  split at hq
  · obtain ⟨p, hp, he⟩ := List.mem_map.mp hq
    by_cases hk : p.1 = k
    · right; rw [← he, if_pos hk]
    · left; rw [← he, if_neg hk]; exact hp
  · rcases List.mem_append.mp hq with h | h
    · left; exact h
    · right; exact List.mem_singleton.mp h

/-- Backfilling changes only the year component of entries. -/
theorem backfill_fst (d : List (List Char × Option Nat)) (y : Option Nat) :
    ∀ q ∈ backfill d y, ∃ p ∈ d, q.1 = p.1 := by
  intro q hq
  simp only [backfill] at hq
  obtain ⟨p, hp, he⟩ := List.mem_map.mp hq
  refine ⟨p, hp, ?_⟩
  rw [← he]
  rcases p with ⟨kk, val⟩
  rcases val with _ | v
  · rcases y with _ | y0
    · rfl
    · by_cases h0 : y0 ≠ 0
      · simp [backfillStep, h0]
      · simp [backfillStep, h0]
  · rfl

/-- Commit step preserves the key invariant: committed keys are stripped and
non-blank. -/
theorem processSpan_keysGood (st : ExtState) (s : Span)
    (h : KeysGood st.blueTexts) : KeysGood (processSpan st s).blueTexts := by
  by_cases hb : is_blue s.color
  · simpa [processSpan, hb] using h
  · by_cases hc : pyStrip st.currentTitle ≠ []
    · simp only [processSpan]
      rw [if_neg hb, if_pos hc]
      intro q hq
      rcases dictSet_mem _ _ _ q hq with hin | he
      · exact h q hin
      · rw [he]
        exact ⟨hc, pyStrip_idem _⟩
    · simpa [processSpan, hb, hc] using h

/-- Backfill preserves the key invariant. -/
theorem backfill_keysGood (d : List (List Char × Option Nat)) (y : Option Nat)
    (h : KeysGood d) : KeysGood (backfill d y) := by
  intro q hq
  obtain ⟨p, hp, he⟩ := backfill_fst d y q hq
  rw [he]
  exact h p hp

/-- Line loop preserves the key invariant. -/
theorem processLine_keysGood (st : ExtState) (l : Line)
    (h : KeysGood st.blueTexts) : KeysGood (processLine st l).blueTexts := by
  exact foldl_preserve (fun a b ha => processSpan_keysGood a b ha) l st h

/-- Block loop preserves the key invariant. -/
theorem processBlock_keysGood (st : ExtState) (b : Block)
    (h : KeysGood st.blueTexts) : KeysGood (processBlock st b).blueTexts := by
  rcases hl : b.lines with _ | ls
  · simpa [processBlock, hl] using h
  · simp only [processBlock, hl]
    exact foldl_preserve (fun a b ha => processLine_keysGood a b ha) ls st h

/-- Page processing preserves the key invariant. -/
theorem processPage_keysGood (st : ExtState) (p : Page)
    (h : KeysGood st.blueTexts) : KeysGood (processPage st p).blueTexts := by
  exact backfill_keysGood _ _
    (foldl_preserve (fun a b ha => processBlock_keysGood a b ha) p.blocks st h)

/-- A component left unchanged by each fold step is unchanged by the fold. -/
theorem foldl_fix {α β γ : Type} (f : α → β → α) (proj : α → γ)
    (h : ∀ a b, proj (f a b) = proj a) (l : List β) (a : α) :
    proj (l.foldl f a) = proj a := by
  induction l generalizing a with
  | nil => rfl
  | cons b t ih => rw [List.foldl_cons, ih, h]

/-- The span step never touches `current_year`. -/
theorem processSpan_currentYear (st : ExtState) (s : Span) :
    (processSpan st s).currentYear = st.currentYear := by
  unfold processSpan
  split
  · rfl
  · split
    · rfl
    · rfl

/-- The span walk of a whole page never touches `current_year`. -/
theorem blocksFold_currentYear (bs : List Block) (st : ExtState) :
    (bs.foldl processBlock st).currentYear = st.currentYear := by
  refine foldl_fix processBlock (fun st => st.currentYear) ?_ bs st
  intro a b
  rcases hl : b.lines with _ | ls
  · simp [processBlock, hl]
  · simp only [processBlock, hl]
    refine foldl_fix processLine (fun st => st.currentYear) ?_ ls a
    intro a' l
    exact foldl_fix processSpan (fun st => st.currentYear) processSpan_currentYear l a'

/-- A highlighted span only grows the accumulator. -/
theorem processSpan_blue_blueTexts (st : ExtState) (s : Span)
    (h : is_blue s.color = true) : (processSpan st s).blueTexts = st.blueTexts := by
  simp [processSpan, h]

/-- A line of only highlighted spans commits nothing. -/
theorem processLine_blue_blueTexts : ∀ (l : Line) (st : ExtState),
    (∀ s ∈ l, is_blue s.color = true) →
    (processLine st l).blueTexts = st.blueTexts := by
  intro l
  induction l with
  | nil => intro st _; rfl
  | cons s t ih =>
    intro st h
    have hs := h s (by simp)
    have ht : ∀ x ∈ t, is_blue x.color = true := fun x hx => h x (by simp [hx])
    show ((s :: t).foldl processSpan st).blueTexts = st.blueTexts
    rw [List.foldl_cons]
    exact (ih _ ht).trans (processSpan_blue_blueTexts st s hs)

/-- Lines of only highlighted spans commit nothing. -/
theorem linesFold_blue_blueTexts : ∀ (ls : List Line) (st : ExtState),
    (∀ l ∈ ls, ∀ s ∈ l, is_blue s.color = true) →
    (ls.foldl processLine st).blueTexts = st.blueTexts := by
  intro ls
  induction ls with
  | nil => intro st _; rfl
  | cons l t ih =>
    intro st h
    have hl := h l (by simp)
    have ht : ∀ x ∈ t, ∀ s ∈ x, is_blue s.color = true := fun x hx => h x (by simp [hx])
    rw [List.foldl_cons]
    exact (ih _ ht).trans (processLine_blue_blueTexts l st hl)

/-- Blocks holding only highlighted spans commit nothing. -/
theorem blocksFold_blue_blueTexts : ∀ (bs : List Block) (st : ExtState),
    (∀ b ∈ bs, ∀ l ∈ b.lines.getD [], ∀ s ∈ l, is_blue s.color = true) →
    (bs.foldl processBlock st).blueTexts = st.blueTexts := by
  intro bs
  induction bs with
  | nil => intro st _; rfl
  | cons b t ih =>
    intro st h
    have hb := h b (by simp)
    have ht : ∀ x ∈ t, ∀ l ∈ x.lines.getD [], ∀ s ∈ l, is_blue s.color = true :=
      fun x hx => h x (by simp [hx])
    rw [List.foldl_cons]
    refine (ih _ ht).trans ?_
    rcases hl : b.lines with _ | ls
    · simp [processBlock, hl]
    · simp only [processBlock, hl]
      refine linesFold_blue_blueTexts ls st ?_
      intro l hml s hms
      exact hb l (by simp [hl, hml]) s hms

/-- One backfill step is idempotent for a fixed year value. -/
theorem backfillStep_idem (y : Option Nat) (p : List Char × Option Nat) :
    backfillStep y (backfillStep y p) = backfillStep y p := by
  rcases p with ⟨k, val⟩
  rcases val with _ | v
  · rcases y with _ | y0
    · rfl
    · by_cases h0 : y0 ≠ 0
      · simp [backfillStep, h0]
      · simp [backfillStep, h0]
  · rfl

/-- Backfilling twice with the same year equals backfilling once. -/
theorem backfill_backfill (d : List (List Char × Option Nat)) (y : Option Nat) :
    backfill (backfill d y) y = backfill d y := by
  induction d with
  | nil => rfl
  | cons p t ih =>
    simp only [backfill, List.map_cons] at *
    rw [backfillStep_idem]
    exact congrArg _ ih

/-- After any document prefix, the dict is already backfilled with the
current year: backfilling it again changes nothing. -/
theorem extract_state_stable (doc : List Page) :
    backfill (doc.foldl processPage extractInit).blueTexts
      (doc.foldl processPage extractInit).currentYear =
    (doc.foldl processPage extractInit).blueTexts := by
  rcases List.eq_nil_or_concat doc with h | ⟨l, q, h⟩
  · subst h; rfl
  · subst h
    rw [List.concat_eq_append, List.foldl_append]
    simp only [List.foldl_cons, List.foldl_nil, processPage]
    exact backfill_backfill _ _

/-- A page whose text lines carry no year token leaves `current_year`
unchanged. -/
theorem pageYear_no_token : ∀ (lines : List (List Char)) (y : Option Nat),
    (∀ line ∈ lines, lineYear line = none) → pageYear y lines = y := by
  intro lines
  induction lines with
  | nil => intro y _; rfl
  | cons l t ih =>
    intro y h
    have hl := h l (by simp)
    have ht : ∀ x ∈ t, lineYear x = none := fun x hx => h x (by simp [hx])
    simp only [pageYear, List.foldl_cons, hl]
    exact ih y ht

/-- C10: every key of the title-to-year mapping produced by
`extract_blue_text_with_years` is a non-empty string with no leading or
trailing whitespace (it equals its own strip), and this invariant is
preserved by every intermediate commit (span step) and page step, not only
at return. -/
theorem extract_keys_nonempty_trimmed :
    (∀ st s, KeysGood st.blueTexts → KeysGood (processSpan st s).blueTexts) ∧
    (∀ st p, KeysGood st.blueTexts → KeysGood (processPage st p).blueTexts) ∧
    (∀ doc, KeysGood (extract_blue_text_with_years doc)) := by
  refine ⟨processSpan_keysGood, processPage_keysGood, ?_⟩
  intro doc
  exact foldl_preserve (fun a b ha => processPage_keysGood a b ha) doc extractInit
    (by intro q hq; cases hq)

/-- Witness: the key invariant evaluated at a concrete commit and a concrete
document. -/
theorem extract_keys_nonempty_trimmed_witness :
    KeysGood (processSpan ⟨[], "T ".toList, none⟩ ⟨"x".toList, 0⟩).blueTexts ∧
    KeysGood (extract_blue_text_with_years [fooPage]) :=
  ⟨extract_keys_nonempty_trimmed.1 ⟨[], "T ".toList, none⟩ ⟨"x".toList, 0⟩
      (by intro q hq; cases hq),
   extract_keys_nonempty_trimmed.2.2 [fooPage]⟩

/-- C7: `is_blue` extracts red as bits 16-23, green as bits 8-15 and blue as
bits 0-7 of the packed 24-bit integer and holds iff blue strictly exceeds
both red and green; it accepts pure blue and rejects pure red and gray. -/
theorem is_blue_channels :
    (∀ c : Nat, is_blue c =
      (decide (c / 65536 % 256 < c % 256) && decide (c / 256 % 256 < c % 256))) ∧
    is_blue 0x0000FF = true ∧ is_blue 0xFF0000 = false ∧ is_blue 0x808080 = false := by
  refine ⟨?_, by decide, by decide, by decide⟩
  intro c
  have hmask : ∀ n : Nat, n &&& 255 = n % 256 := by
    intro n
    have h : (255 : Nat) = 2 ^ 8 - 1 := by norm_num
    rw [h, Nat.and_pow_two_sub_one_eq_mod]
  simp only [is_blue]
  rw [Nat.shiftRight_eq_div_pow, Nat.shiftRight_eq_div_pow, hmask, hmask, hmask]

/-- C5 counterexample: on the synthetic spans
[highlighted "Foo ", highlighted "Bar", plain "Baz"] the committed title is
NOT the single-spaced string "Foo Bar". -/
theorem segmenter_foo_bar_ce :
    "Foo Bar".toList ∉ (extract_blue_text_with_years [fooPage]).map Prod.fst := by
  decide

/-- C5 amended: the result contains exactly the title "Foo  Bar" (with two
internal spaces: the span text "Foo " already ends in one space and the
segmenter appends another after every highlighted span) and excludes
"Baz". -/
theorem segmenter_foo_bar_amended :
    (extract_blue_text_with_years [fooPage]).map Prod.fst = ["Foo  Bar".toList] ∧
    "Baz".toList ∉ (extract_blue_text_with_years [fooPage]).map Prod.fst := by
  constructor
  · decide
  · decide

/-- C1 counterexample: a document whose span stream ends with
highlighted "End" yields an EMPTY result, even though the accumulator holds
"End " when the last page finishes: no final commit happens. -/
theorem trailing_run_ce :
    extract_blue_text_with_years [endPage] = [] ∧
    ([endPage].foldl processPage extractInit).currentTitle = "End ".toList := by
  constructor
  · decide
  · decide

/-- C1 amended: after all spans across all pages are processed, a non-empty
accumulator is DISCARDED, never committed: appending a final page made of
only highlighted spans (and no year lines) leaves the extraction result
unchanged. -/
theorem trailing_run_not_committed (doc : List Page) (p : Page)
    (hb : ∀ b ∈ p.blocks, ∀ l ∈ b.lines.getD [], ∀ s ∈ l, is_blue s.color = true)
    (ht : p.textLines = []) :
    extract_blue_text_with_years (doc ++ [p]) = extract_blue_text_with_years doc := by
  unfold extract_blue_text_with_years
  rw [List.foldl_append]
  simp only [List.foldl_cons, List.foldl_nil, processPage, ht]
  rw [blocksFold_blue_blueTexts p.blocks _ hb, blocksFold_currentYear]
  show backfill (doc.foldl processPage extractInit).blueTexts
      (pageYear (doc.foldl processPage extractInit).currentYear []) =
    (doc.foldl processPage extractInit).blueTexts
  exact extract_state_stable doc

/-- Witness: appending the all-highlighted page `endPage` to a concrete
document does not change the extraction result. -/
theorem trailing_run_not_committed_witness :
    extract_blue_text_with_years ([yearOnlyPage] ++ [endPage]) =
      extract_blue_text_with_years [yearOnlyPage] :=
  trailing_run_not_committed [yearOnlyPage] endPage (by decide) (by decide)

/-- C4 counterexample: page 1 carries the year token 2020 and no titles;
page 2 commits the title "T" and carries NO year token, yet at page 2's
boundary "T" is assigned 2020, carried over from page 1 — the claim says it
should remain unassigned. -/
theorem year_carry_ce :
    extract_blue_text_with_years [yearOnlyPage, titleOnlyPage] =
      [("T".toList, some 2020)] ∧
    (∀ line ∈ titleOnlyPage.textLines, lineYear line = none) := by
  constructor
  · decide
  · decide

/-- C4 amended: the most-recent-year variable is DOCUMENT-scoped, not
page-scoped: a page with no year token leaves `current_year` at its value
from earlier pages, and the backfill at that page's boundary uses this
carried-over value for every title with no year assigned. -/
theorem year_carries_over (st : ExtState) (p : Page)
    (h : ∀ line ∈ p.textLines, lineYear line = none) :
    (processPage st p).currentYear = st.currentYear ∧
    (processPage st p).blueTexts =
      backfill (p.blocks.foldl processBlock st).blueTexts st.currentYear := by
  have hy : pageYear (p.blocks.foldl processBlock st).currentYear p.textLines =
      (p.blocks.foldl processBlock st).currentYear :=
    pageYear_no_token p.textLines _ h
  have hcy := blocksFold_currentYear p.blocks st
  constructor
  · simp only [processPage]
    rw [hy, hcy]
  · simp only [processPage]
    rw [hy, hcy]

/-- Witness: a concrete state holding year 2020 from an earlier page, pushed
through a page with no year token, keeps and uses 2020. -/
theorem year_carries_over_witness :
    (processPage ⟨[("T".toList, none)], [], some 2020⟩ titleOnlyPage).currentYear =
      some 2020 ∧
    (processPage ⟨[("T".toList, none)], [], some 2020⟩ titleOnlyPage).blueTexts =
      backfill (titleOnlyPage.blocks.foldl processBlock
        ⟨[("T".toList, none)], [], some 2020⟩).blueTexts (some 2020) :=
  year_carries_over ⟨[("T".toList, none)], [], some 2020⟩ titleOnlyPage (by decide)

/-- C9: with a positive cutoff (current calendar year minus 4), a title is
retained by the recency filter iff it has an associated year at least the
cutoff; titles with no year are dropped.  Concretely, with current year 2024
and cutoff 2020, a 2019 title is excluded, a 2020 title included, and a
year-less title excluded. -/
theorem filtered_titles_spec (currentYear : Nat) (h : 4 < currentYear)
    (extracted : List (List Char × Option Nat)) (t : List Char) :
    (t ∈ filtered_titles extracted (currentYear - 4) ↔
      ∃ y, (t, some y) ∈ extracted ∧ currentYear - 4 ≤ y) ∧
    "new".toList ∈ filtered_titles extracted2024 (2024 - 4) ∧
    "old".toList ∉ filtered_titles extracted2024 (2024 - 4) ∧
    "noyear".toList ∉ filtered_titles extracted2024 (2024 - 4) := by
  refine ⟨?_, by decide, by decide, by decide⟩
  constructor
  · intro ht
    simp only [filtered_titles, List.mem_toFinset, List.mem_map, List.mem_filter] at ht
    obtain ⟨⟨k, oy⟩, ⟨hmem, hpred⟩, hfst⟩ := ht
    rcases oy with _ | y
    · simp at hpred
    · simp only [decide_eq_true_eq, Bool.and_eq_true] at hpred
      refine ⟨y, ?_, hpred.2⟩
      have hk : k = t := hfst
      rw [← hk]
      exact hmem
  · rintro ⟨y, hmem, hy⟩
    simp only [filtered_titles, List.mem_toFinset, List.mem_map, List.mem_filter]
    refine ⟨(t, some y), ⟨hmem, ?_⟩, rfl⟩
    simp only [decide_eq_true_eq, Bool.and_eq_true]
    constructor
    · omega
    · exact hy

/-- Witness: the recency filter evaluated at the 2024 example. -/
theorem filtered_titles_spec_witness :
    "new".toList ∈ filtered_titles extracted2024 (2024 - 4) :=
  (filtered_titles_spec 2024 (by norm_num) extracted2024 "new".toList).2.1

/-- C6 counterexample: the titles "a⟨tab⟩b" and "ab" differ only by internal
whitespace (one tab), yet the variant-2 normalizer `replace(" ", "")` maps
them to different keys and they fail to match in the comparator. -/
theorem replace_space_ce :
    pyReplaceSpace "a\tb".toList ≠ pyReplaceSpace "ab".toList ∧
    common_titles {"a\tb".toList} {"ab".toList} = ∅ := by
  constructor
  · decide
  · decide

/-- C6 amended: the variant-2 normalizer removes all SPACE characters (U+0020
only, not every kind of whitespace): any two titles that differ only by
internal spaces receive the same key and match in the comparator in both
directions. -/
theorem replace_space_matches (A B : Finset (List Char)) (t1 t2 : List Char)
    (h1 : t1 ∈ A) (h2 : t2 ∈ B) (h : pyReplaceSpace t1 = pyReplaceSpace t2) :
    t1 ∈ common_titles A B ∧ t2 ∈ common_titles B A := by
  constructor
  · simp only [common_titles, Finset.mem_filter]
    exact ⟨h1, t2, h2, h⟩
  · simp only [common_titles, Finset.mem_filter]
    exact ⟨h2, t1, h1, h.symm⟩

/-- Witness: "a b" and "ab" differ only by an internal space and match. -/
theorem replace_space_matches_witness :
    "a b".toList ∈ common_titles {"a b".toList} {"ab".toList} ∧
    "ab".toList ∈ common_titles {"ab".toList} {"a b".toList} :=
  replace_space_matches {"a b".toList} {"ab".toList} "a b".toList "ab".toList
    (by decide) (by decide) (by decide)

/-- C3 counterexample: with A = {"a b", "ab"} and B = {"ab"}, the pairwise
intersection computed for (A, B) has 2 elements but the one computed for
(B, A) has 1: the cardinalities are NOT symmetric. -/
theorem common_titles_symm_ce :
    (common_titles {"a b".toList, "ab".toList} {"ab".toList}).card = 2 ∧
    (common_titles {"ab".toList} {"a b".toList, "ab".toList}).card = 1 := by
  constructor
  · decide
  · decide

/-- Image of the pairwise intersection under the normalizer: the
intersection of the two normalized-key images. -/
theorem common_titles_image (A B : Finset (List Char)) :
    (common_titles A B).image pyReplaceSpace =
      A.image pyReplaceSpace ∩ B.image pyReplaceSpace := by
  ext k
  simp only [common_titles, Finset.mem_image, Finset.mem_filter, Finset.mem_inter]
  constructor
  · rintro ⟨t1, ⟨h1, t2, h2, he⟩, hk⟩
    exact ⟨⟨t1, h1, hk⟩, ⟨t2, h2, by rw [← he, hk]⟩⟩
  · rintro ⟨⟨t1, h1, hk1⟩, ⟨t2, h2, hk2⟩⟩
    exact ⟨t1, ⟨h1, t2, h2, by rw [hk1, hk2]⟩, hk1⟩

/-- C3 amended: the pairwise comparison always has symmetric normalized-key
membership; its cardinality is symmetric provided each set's titles have
pairwise-distinct normalized keys (it can differ otherwise, see the
counterexample). -/
theorem common_titles_symm :
    (∀ A B : Finset (List Char), (common_titles A B).image pyReplaceSpace =
      (common_titles B A).image pyReplaceSpace) ∧
    (∀ A B : Finset (List Char),
      (∀ t ∈ A, ∀ t' ∈ A, pyReplaceSpace t = pyReplaceSpace t' → t = t') →
      (∀ t ∈ B, ∀ t' ∈ B, pyReplaceSpace t = pyReplaceSpace t' → t = t') →
      (common_titles A B).card = (common_titles B A).card) := by
  constructor
  · intro A B
    rw [common_titles_image, common_titles_image, Finset.inter_comm]
  · intro A B hA hB
    have iA : Set.InjOn pyReplaceSpace ↑(common_titles A B) := by
      intro x hx y hy he
      have hxA : x ∈ A := Finset.mem_of_mem_filter x (Finset.mem_coe.mp hx)
      have hyA : y ∈ A := Finset.mem_of_mem_filter y (Finset.mem_coe.mp hy)
      exact hA x hxA y hyA he
    have iB : Set.InjOn pyReplaceSpace ↑(common_titles B A) := by
      intro x hx y hy he
      have hxB : x ∈ B := Finset.mem_of_mem_filter x (Finset.mem_coe.mp hx)
      have hyB : y ∈ B := Finset.mem_of_mem_filter y (Finset.mem_coe.mp hy)
      exact hB x hxB y hyB he
    calc (common_titles A B).card
        = ((common_titles A B).image pyReplaceSpace).card :=
          (Finset.card_image_of_injOn iA).symm
      _ = ((common_titles B A).image pyReplaceSpace).card := by
          rw [common_titles_image, common_titles_image, Finset.inter_comm]
      _ = (common_titles B A).card := Finset.card_image_of_injOn iB

/-- Witness: symmetric cardinality at concrete duplicate-free sets. -/
theorem common_titles_symm_witness :
    (common_titles {"x y".toList} {"xy".toList}).card =
      (common_titles {"xy".toList} {"x y".toList}).card :=
  common_titles_symm.2 {"x y".toList} {"xy".toList} (by decide) (by decide)

/-- The topmost-block scan satisfies the selection relation. -/
theorem topSel_fold (bs : List Block) : TopSel bs (bs.foldl topmostStep (none, [])) := by
  induction bs using List.reverseRecOn with
  | nil =>
    left
    exact ⟨rfl, by intro b hb; cases hb⟩
  | append_singleton l b ih =>
    rw [List.foldl_append, List.foldl_cons, List.foldl_nil]
    rcases ih with ⟨h1, h2⟩ | ⟨c, hc, hct, bb, hbb, hacc, hmin⟩
    · rw [h1]
      by_cases hbt : b.type = 0
      · rcases hbox : b.bbox with _ | nb
        · left
          refine ⟨by simp [topmostStep, hbt, hbox], ?_⟩
          intro b' hb'
          rcases List.mem_append.mp hb' with hin | hin
          · exact h2 b' hin
          · rw [List.mem_singleton.mp hin, hbox]
            rintro ⟨_, hs⟩
            cases hs
        · right
          refine ⟨b, by simp, hbt, nb, hbox, ?_, ?_⟩
          · simp [topmostStep, hbt, hbox, ltTop]
          · intro b' hb' hbt' bb' hbb'
            rcases List.mem_append.mp hb' with hin | hin
            · exact absurd ⟨hbt', by rw [hbb']; rfl⟩ (h2 b' hin)
            · rw [List.mem_singleton.mp hin, hbox] at hbb'
              rw [Option.some_inj.mp hbb']
      · left
        refine ⟨by simp [topmostStep, hbt], ?_⟩
        intro b' hb'
        rcases List.mem_append.mp hb' with hin | hin
        · exact h2 b' hin
        · rw [List.mem_singleton.mp hin]
          rintro ⟨ht, _⟩
          exact hbt ht
    · rw [hacc]
      by_cases hbt : b.type = 0
      · rcases hbox : b.bbox with _ | nb
        · right
          refine ⟨c, List.mem_append_left _ hc, hct, bb, hbb, ?_, ?_⟩
          · simp [topmostStep, hbt, hbox]
          · intro b' hb' hbt' bb' hbb'
            rcases List.mem_append.mp hb' with hin | hin
            · exact hmin b' hin hbt' bb' hbb'
            · rw [List.mem_singleton.mp hin, hbox] at hbb'
              cases hbb'
        · by_cases hlt : nb.2.1 < bb.2.1
          · right
            refine ⟨b, List.mem_append_right _ (by simp), hbt, nb, hbox, ?_, ?_⟩
            · simp [topmostStep, hbt, hbox, ltTop, hlt]
            · intro b' hb' hbt' bb' hbb'
              rcases List.mem_append.mp hb' with hin | hin
              · exact le_of_lt (lt_of_lt_of_le hlt (hmin b' hin hbt' bb' hbb'))
              · rw [List.mem_singleton.mp hin, hbox] at hbb'
                rw [Option.some_inj.mp hbb']
          · right
            refine ⟨c, List.mem_append_left _ hc, hct, bb, hbb, ?_, ?_⟩
            · simp [topmostStep, hbt, hbox, ltTop, hlt]
            · intro b' hb' hbt' bb' hbb'
              rcases List.mem_append.mp hb' with hin | hin
              · exact hmin b' hin hbt' bb' hbb'
              · rw [List.mem_singleton.mp hin, hbox] at hbb'
                rw [← Option.some_inj.mp hbb']
                exact le_of_not_lt hlt
      · right
        refine ⟨c, List.mem_append_left _ hc, hct, bb, hbb, ?_, ?_⟩
        · simp [topmostStep, hbt]
        · intro b' hb' hbt' bb' hbb'
          rcases List.mem_append.mp hb' with hin | hin
          · exact hmin b' hin hbt' bb' hbb'
          · rw [List.mem_singleton.mp hin] at hbt'
            exact absurd hbt' hbt

/-- C8: the format detector inspects only the first page; with no text
blocks the topmost string stays empty and the classification is negative
(no error); otherwise the tested text is the space-joined span text of a
text block whose bounding-box top coordinate is minimal, and the result is
the marker-substring test on it.  The concrete examples classify "Citations
— Google Scholar" as matching and "Annual Report 2023" as not. -/
theorem is_google_scholar_spec :
    (∀ (p : Page) (r r' : List Page),
      is_google_scholar (p :: r) = is_google_scholar (p :: r')) ∧
    (∀ (p : Page) (r : List Page), (∀ b ∈ p.blocks, b.type ≠ 0) →
      is_google_scholar (p :: r) = false) ∧
    (∀ (p : Page) (r : List Page),
      (∃ b ∈ p.blocks, b.type = 0 ∧ b.bbox.isSome = true) →
      ∃ b ∈ p.blocks, b.type = 0 ∧ ∃ bb, b.bbox = some bb ∧
        (∀ b' ∈ p.blocks, b'.type = 0 → ∀ bb', b'.bbox = some bb' →
          bb.2.1 ≤ bb'.2.1) ∧
        is_google_scholar (p :: r) = containsSub marker (blockText b)) ∧
    is_google_scholar [scholarPage] = true ∧
    is_google_scholar [annualPage] = false ∧
    is_google_scholar [imageOnlyPage] = false := by
  refine ⟨?_, ?_, ?_, by decide, by decide, by decide⟩
  · intro p r r'
    rfl
  · intro p r h
    rcases topSel_fold p.blocks with ⟨h1, _⟩ | ⟨c, hc, hct, _⟩
    · show containsSub marker (p.blocks.foldl topmostStep (none, [])).2 = false
      rw [h1]
      decide
    · exact absurd hct (h c hc)
  · intro p r hex
    rcases topSel_fold p.blocks with ⟨_, h2⟩ | ⟨c, hc, hct, bb, hbb, hacc, hmin⟩
    · obtain ⟨b, hb, hbt, hbs⟩ := hex
      exact absurd ⟨hbt, hbs⟩ (h2 b hb)
    · refine ⟨c, hc, hct, bb, hbb, hmin, ?_⟩
      show containsSub marker (p.blocks.foldl topmostStep (none, [])).2 = _
      rw [hacc]

/-- Witness: the detector at a page with no text blocks and at the scholar
example page. -/
theorem is_google_scholar_spec_witness :
    is_google_scholar [imageOnlyPage] = false ∧
    ∃ b ∈ scholarPage.blocks, b.type = 0 ∧ ∃ bb, b.bbox = some bb ∧
      (∀ b' ∈ scholarPage.blocks, b'.type = 0 → ∀ bb', b'.bbox = some bb' →
        bb.2.1 ≤ bb'.2.1) ∧
      is_google_scholar [scholarPage] = containsSub marker (blockText b) :=
  ⟨is_google_scholar_spec.2.1 imageOnlyPage [] (by decide),
   is_google_scholar_spec.2.2.1 scholarPage [] (by decide)⟩

/-- A fold-step property restricted to list members is preserved along the
fold. -/
theorem foldl_preserve_mem {α β : Type} (P : α → Prop) (f : α → β → α) (l : List β)
    (h : ∀ a, ∀ b ∈ l, P a → P (f a b)) : ∀ (a : α), P a → P (l.foldl f a) := by
  induction l with
  | nil =>
    intro a ha
    exact ha
  | cons b t ih =>
    intro a ha
    rw [List.foldl_cons]
    exact ih (fun a' b' hb' ha' => h a' b' (List.mem_cons_of_mem b hb') ha') _
      (h a b (List.mem_cons_self b t) ha)

/-- Keys of a Python dict after assignment: unchanged if the key existed,
otherwise the key is appended. -/
theorem dictSet_keys {α : Type} (d : List (List Char × α)) (k : List Char) (v : α) :
    (dictSet d k v).map Prod.fst =
      if d.any (fun p => decide (p.1 = k)) then d.map Prod.fst
      else d.map Prod.fst ++ [k] := by
  by_cases hany : d.any (fun p => decide (p.1 = k))
  · rw [dictSet, if_pos hany, if_pos hany, List.map_map]
    apply List.map_congr_left
    intro p _
    by_cases hk : p.1 = k
    · simp [Function.comp, hk]
    · simp [Function.comp, hk]
  · rw [dictSet, if_neg hany, if_neg hany, List.map_append]
    rfl

/-- Every entry of a researcher's stripped-key dict pairs a title of the
researcher with its normalized key. -/
theorem buildDict_entries (ts : List (List Char)) :
    ∀ q ∈ buildDict ts, q.2 ∈ ts ∧ pyReplaceSpace q.2 = q.1 := by
  refine foldl_preserve_mem
    (fun d => ∀ q ∈ d, q.2 ∈ ts ∧ pyReplaceSpace q.2 = q.1)
    (fun d t => dictSet d (pyReplaceSpace t) t) ts ?_ [] ?_
  · intro d t ht hd q hq
    rcases dictSet_mem d (pyReplaceSpace t) t q hq with hin | he
    · exact hd q hin
    · rw [he]
      exact ⟨ht, rfl⟩
  · intro q hq
    cases hq

/-- A successful dict lookup returns an entry of the dict. -/
theorem dictFind_some {α : Type} {d : List (List Char × α)} {k : List Char} {v : α}
    (h : dictFind d k = some v) : (k, v) ∈ d := by
  simp only [dictFind] at h
  rcases hq : d.find? (fun p => decide (p.1 = k)) with _ | q
  · rw [hq] at h
    cases h
  · rw [hq] at h
    simp only [Option.map_some'] at h
    have hv : q.2 = v := Option.some_inj.mp h
    have hmem := List.mem_of_find?_eq_some hq
    have hpk := List.find?_some hq
    have hk : q.1 = k := of_decide_eq_true (by simpa using hpk)
    have hqe : q = (k, v) := by
      rcases q with ⟨a, b⟩
      simp only at hv hk
      rw [hv, hk]
    rw [← hqe]
    exact hmem

/-- A key occurs among a dict's keys iff lookup succeeds. -/
theorem mem_keys_iff_find {α : Type} (d : List (List Char × α)) (k : List Char) :
    k ∈ d.map Prod.fst ↔ ∃ v, dictFind d k = some v := by
  constructor
  · intro hk
    cases hfind : d.find? (fun p => decide (p.1 = k)) with
    | none =>
      rw [List.find?_eq_none] at hfind
      obtain ⟨p, hp, hpk⟩ := List.mem_map.mp hk
      exact absurd (by simp [hpk]) (hfind p hp)
    | some q =>
      exact ⟨q.2, by simp [dictFind, hfind]⟩
  · rintro ⟨v, hv⟩
    exact List.mem_map.mpr ⟨(k, v), dictFind_some hv, rfl⟩

/-- The keys of a researcher's stripped-key dict are exactly the normalized
keys of the researcher's titles. -/
theorem buildDict_keys (ts : List (List Char)) (k : List Char) :
    k ∈ (buildDict ts).map Prod.fst ↔ ∃ t ∈ ts, pyReplaceSpace t = k := by
  constructor
  · intro hk
    obtain ⟨q, hq, hfst⟩ := List.mem_map.mp hk
    have hent := buildDict_entries ts q hq
    exact ⟨q.2, hent.1, by rw [hent.2, hfst]⟩
  · intro hex
    have haux : ∀ (l : List (List Char)) (d : List (List Char × List Char)),
        (k ∈ d.map Prod.fst ∨ ∃ t ∈ l, pyReplaceSpace t = k) →
        k ∈ (l.foldl (fun d t => dictSet d (pyReplaceSpace t) t) d).map Prod.fst := by
      intro l
      induction l with
      | nil =>
        intro d h
        rcases h with h | ⟨t, ht, _⟩
        · exact h
        · cases ht
      | cons t rest ih =>
        intro d h
        rw [List.foldl_cons]
        apply ih
        rcases h with h | ⟨t', ht', hn⟩
        · left
          rw [dictSet_keys]
          split
          · exact h
          · exact List.mem_append_left _ h
        · rcases List.mem_cons.mp ht' with he | hmem
          · left
            rw [← hn, he, dictSet_keys]
            split
            · rename_i hany
              obtain ⟨p, hp, hpk⟩ := List.any_eq_true.mp hany
              exact List.mem_map.mpr ⟨p, hp, of_decide_eq_true hpk⟩
            · exact List.mem_append_right _ (by simp)
          · right
            exact ⟨t', hmem, hn⟩
    exact haux ts [] (Or.inr hex)

/-- Membership in an iterated key-set intersection. -/
theorem foldl_filter_mem (ls : List (List (List Char))) :
    ∀ (s : List (List Char)) (a : List Char),
      (a ∈ ls.foldl (fun acc ks => acc.filter (fun k => decide (k ∈ ks))) s ↔
        a ∈ s ∧ ∀ ks ∈ ls, a ∈ ks) := by
  induction ls with
  | nil =>
    intro s a
    simp
  | cons ks t ih =>
    intro s a
    rw [List.foldl_cons, ih]
    simp only [List.mem_filter, decide_eq_true_eq, List.forall_mem_cons]
    tauto

/-- Membership in `common_all_keys`: a key survives iff the researcher list
is non-empty and the key occurs in every researcher's dict. -/
theorem mem_common_all_keys (rs : List (List (List Char))) (k : List Char) :
    k ∈ common_all_keys rs ↔
      rs ≠ [] ∧ ∀ ts ∈ rs, k ∈ (buildDict ts).map Prod.fst := by
  cases rs with
  | nil => simp [common_all_keys, stripped_sets]
  | cons r rest =>
    have hshape : common_all_keys (r :: rest) =
        ((rest.map buildDict).map (fun d => d.map Prod.fst)).foldl
          (fun acc ks => acc.filter (fun k => decide (k ∈ ks)))
          ((buildDict r).map Prod.fst) := rfl
    rw [hshape]
    refine Iff.trans (foldl_filter_mem _ _ _) ?_
    constructor
    · rintro ⟨hr, hall⟩
      refine ⟨by simp, ?_⟩
      intro ts hts
      rcases List.mem_cons.mp hts with he | hmem
      · rw [he]
        exact hr
      · exact hall _ (List.mem_map.mpr ⟨buildDict ts,
          List.mem_map.mpr ⟨ts, hmem, rfl⟩, rfl⟩)
    · rintro ⟨_, hall⟩
      refine ⟨hall r (by simp), ?_⟩
      intro ks hks
      obtain ⟨d, hd, hde⟩ := List.mem_map.mp hks
      obtain ⟨ts, hts, hde2⟩ := List.mem_map.mp hd
      rw [← hde, ← hde2]
      exact hall ts (by simp [hts])

/-- Membership in `common_all`: the displayed titles are exactly the
original forms looked up, in EVERY researcher's dict, at every surviving
key. -/
theorem mem_common_all (rs : List (List (List Char))) (t : List Char) :
    t ∈ common_all rs ↔
      ∃ ts ∈ rs, ∃ k ∈ common_all_keys rs, dictFind (buildDict ts) k = some t := by
  simp only [common_all, stripped_sets, List.mem_toFinset, List.mem_flatMap,
    List.mem_filterMap, List.mem_map]
  constructor
  · rintro ⟨d, ⟨ts, hts, hd⟩, k, hk, hfind⟩
    refine ⟨ts, hts, k, hk, ?_⟩
    rw [hd]
    exact hfind
  · rintro ⟨ts, hts, k, hk, hfind⟩
    exact ⟨buildDict ts, ⟨ts, hts, rfl⟩, k, hk, hfind⟩

/-- Two surviving keys with the same looked-up title coincide: the lookup is
injective on keys. -/
theorem buildDict_find_inj (ts : List (List Char)) (k1 k2 : List Char) (v : List Char)
    (h1 : dictFind (buildDict ts) k1 = some v)
    (h2 : dictFind (buildDict ts) k2 = some v) : k1 = k2 := by
  have e1 := (buildDict_entries ts (k1, v) (dictFind_some h1)).2
  have e2 := (buildDict_entries ts (k2, v) (dictFind_some h2)).2
  simp only at e1 e2
  rw [← e1, ← e2]

/-- Looking up every surviving key in a fixed researcher's dict is injective
on the surviving keys. -/
theorem common_keys_lookup_injOn (rs : List (List (List Char)))
    (ts : List (List Char)) (hts : ts ∈ rs) :
    Set.InjOn (fun k => (dictFind (buildDict ts) k).getD [])
      ↑(common_all_keys rs).toFinset := by
  intro k1 hk1 k2 hk2 he
  rw [Finset.mem_coe, List.mem_toFinset] at hk1 hk2
  obtain ⟨v1, hv1⟩ := (mem_keys_iff_find (buildDict ts) k1).mp
    (((mem_common_all_keys rs k1).mp hk1).2 ts hts)
  obtain ⟨v2, hv2⟩ := (mem_keys_iff_find (buildDict ts) k2).mp
    (((mem_common_all_keys rs k2).mp hk2).2 ts hts)
  simp only [hv1, hv2, Option.getD_some] at he
  exact buildDict_find_inj ts k1 k2 v1 hv1 (by rw [he]; exact hv2)

/-- C2 counterexample: for the three researchers [["a b"], ["ab"], ["ab"]]
the surviving-key intersection has 1 element, but the "All Researchers" row
displays 2 title forms (one per distinct original spelling), exceeding both
the key-intersection cardinality and the (A, B) pairwise count of 1. -/
theorem common_all_ce :
    (common_all_keys rs3).toFinset.card = 1 ∧
    (common_all rs3).card = 2 ∧
    (common_titles ["a b".toList].toFinset ["ab".toList].toFinset).card = 1 := by
  refine ⟨by decide, by decide, by decide⟩

/-- C2 amended: the "All Researchers" row intersects the normalized-key sets
of all records but collects, for each surviving key, the original title form
of EVERY record.  When all records agree on the original form of each
surviving key, its count equals the key-intersection cardinality and is at
most every pairwise count; with disagreeing forms it can exceed both (see
the counterexample). -/
theorem common_all_spec (rs : List (List (List Char))) (hne : rs ≠ [])
    (hagree : ∀ ts1 ∈ rs, ∀ ts2 ∈ rs, ∀ k ∈ common_all_keys rs,
      dictFind (buildDict ts1) k = dictFind (buildDict ts2) k) :
    (common_all rs).card = (common_all_keys rs).toFinset.card ∧
    ∀ tsA ∈ rs, ∀ tsB ∈ rs,
      (common_all rs).card ≤ (common_titles tsA.toFinset tsB.toFinset).card := by
  obtain ⟨r0, rest, hrs⟩ : ∃ r0 rest, rs = r0 :: rest := by
    cases rs with
    | nil => exact absurd rfl hne
    | cons a l => exact ⟨a, l, rfl⟩
  have hr0 : r0 ∈ rs := by rw [hrs]; simp
  have hfound : ∀ ts ∈ rs, ∀ k ∈ common_all_keys rs,
      ∃ v, dictFind (buildDict ts) k = some v := by
    intro ts hts k hk
    exact (mem_keys_iff_find (buildDict ts) k).mp
      (((mem_common_all_keys rs k).mp hk).2 ts hts)
  have himg : common_all rs = (common_all_keys rs).toFinset.image
      (fun k => (dictFind (buildDict r0) k).getD []) := by
    ext t
    rw [mem_common_all]
    simp only [Finset.mem_image, List.mem_toFinset]
    constructor
    · rintro ⟨ts, hts, k, hk, hfind⟩
      refine ⟨k, hk, ?_⟩
      rw [hagree r0 hr0 ts hts k hk, hfind]
      rfl
    · rintro ⟨k, hk, hgetd⟩
      obtain ⟨v, hv⟩ := hfound r0 hr0 k hk
      refine ⟨r0, hr0, k, hk, ?_⟩
      rw [hv] at hgetd ⊢
      simp only [Option.getD_some] at hgetd
      rw [hgetd]
  constructor
  · rw [himg]
    exact Finset.card_image_of_injOn (common_keys_lookup_injOn rs r0 hr0)
  · intro tsA htsA tsB htsB
    rw [himg, Finset.card_image_of_injOn (common_keys_lookup_injOn rs r0 hr0)]
    refine Finset.card_le_card_of_injOn
      (fun k => (dictFind (buildDict tsA) k).getD []) ?_
      (common_keys_lookup_injOn rs tsA htsA)
    intro k hk
    rw [List.mem_toFinset] at hk
    obtain ⟨v, hv⟩ := hfound tsA htsA k hk
    show (dictFind (buildDict tsA) k).getD [] ∈ common_titles tsA.toFinset tsB.toFinset
    rw [hv]
    simp only [Option.getD_some]
    have hvent := buildDict_entries tsA (k, v) (dictFind_some hv)
    simp only at hvent
    have hkeyB := ((mem_common_all_keys rs k).mp hk).2 tsB htsB
    obtain ⟨t2, ht2, hn2⟩ := (buildDict_keys tsB k).mp hkeyB
    simp only [common_titles, Finset.mem_filter, List.mem_toFinset]
    exact ⟨hvent.1, t2, ht2, by rw [hvent.2, hn2]⟩

/-- Witness: the spec's A = {X,Y}, B = {X,Z}, C = {X} example, where all
records spell the shared title identically: the row has exactly 1 title. -/
theorem common_all_spec_witness :
    (common_all rsSame).card = (common_all_keys rsSame).toFinset.card ∧
    (common_all rsSame).card ≤ (common_titles ["X".toList, "Y".toList].toFinset
      ["X".toList, "Z".toList].toFinset).card :=
  ⟨(common_all_spec rsSame (by decide) (by decide)).1,
   (common_all_spec rsSame (by decide) (by decide)).2
     ["X".toList, "Y".toList] (by decide) ["X".toList, "Z".toList] (by decide)⟩
